import Mathlib

/-!
Verification of the FatFile large-log-viewer repository.

The definitions below are shallow embeddings of the TypeScript sources under
src/fatfile/src (webview client, protocol types) and, where the Rust engine
itself is absent from the repository snapshot (only its README documents it),
models built from the specification; those are marked in their doc comments.
JavaScript Maps are modelled as insertion-ordered association lists with
unique keys, and JavaScript numbers that the code only ever uses as
non-negative integers are modelled as Nat.
-/

namespace FatFile

/-- A search match as declared in the protocol types (types.ts). -/
structure SearchMatch where
  line_number : Nat
  column : Nat
  start_index : Nat
  end_index : Nat
deriving DecidableEq

/-- A SearchResults record as declared in the protocol types (types.ts). -/
structure SearchResults where
  «matches» : List SearchMatch
  total_matches : Nat
  search_complete : Bool
deriving DecidableEq

/-- A Chunk response as declared in the protocol types (types.ts). -/
structure ChunkResp where
  data : List (List String)
  start_line : Nat
  end_line : Nat
deriving DecidableEq

/-- The log-format tags of the protocol (types.ts). -/
inductive LogFormat
  | CommonLogFormat
  | SyslogRFC3164
  | SyslogRFC5424
  | W3CExtended
  | CommonEventFormat
  | NCSACombined
  | Other
deriving DecidableEq

/-! ### JavaScript Map model

A JS `Map<number, V>` keeps entries in insertion order and has unique keys.
We model it as a `List (Nat × V)`; `set` replaces in place when the key is
present and appends otherwise, `delete` removes the entry, `get` returns the
value of the unique entry with the key. -/

/-- JS `Map.prototype.set`. -/
def jsMapSet {β : Type} (m : List (Nat × β)) (k : Nat) (v : β) : List (Nat × β) :=
  if (m.map Prod.fst).contains k then
    m.map (fun e => if e.1 = k then (k, v) else e)
  else m ++ [(k, v)]

/-- JS `Map.prototype.delete` (on a map with unique keys). -/
def jsMapDelete {β : Type} (m : List (Nat × β)) (k : Nat) : List (Nat × β) :=
  m.filter (fun e => e.1 != k)

/-- JS `Map.prototype.get`. -/
def jsMapLookup {β : Type} (m : List (Nat × β)) (k : Nat) : Option β :=
  (m.find? (fun e => e.1 == k)).map Prod.snd

/-- One chunk of materialized lines (`string[][]` in the client). -/
abbrev ChunkData := List (List String)

/-- The client's chunk cache, a JS Map from start line to chunk data. -/
abbrev ChunkMap := List (Nat × ChunkData)

/-- Access-time map of the ChunkManager, a JS Map from start line to a
timestamp. -/
abbrev AccessTimes := List (Nat × Nat)

/-! ### Backend search engine, modelled from the spec (claim C1)

The Rust engine is not part of the repository snapshot (only its README is),
so the Search algorithm is modelled from spec section 4.5. -/

/-- The match cap of the search engine (spec section 4.5, step 5). -/
def MATCH_CAP : Nat := 1000

/-- Modelled from the spec: the Rust search engine is missing from src/.
One line of the scan: matches of the current line are enqueued while the
shared match counter is below the cap; once the cap is reached no further
match is enqueued.  Returns the kept matches and the updated counter. -/
def takeToCap : List SearchMatch → Nat → List SearchMatch × Nat
  | [], count => ([], count)
  | m :: ms, count =>
    if count < MATCH_CAP then
      let r := takeToCap ms (count + 1)
      (m :: r.1, r.2)
    else ([], count)

/-- Modelled from the spec: the Rust search engine is missing from src/.
Scan of the whole file in line order: `perLine` gives, for each line, the
matches the pattern produces on that line; the shared counter threads through
and enforces the cap. -/
def collectMatches : List (List SearchMatch) → Nat → List SearchMatch × Nat
  | [], count => ([], count)
  | line :: rest, count =>
    let r1 := takeToCap line count
    let r2 := collectMatches rest r1.2
    (r1.1 ++ r2.1, r2.2)

/-- Modelled from the spec: the Rust search engine is missing from src/.
Spec section 4.5, step 6: after the scan the aggregator writes a
SearchResults record with `total_matches` the number of kept matches and
`search_complete = (total_matches < 1000)`. -/
def runSearch (perLine : List (List SearchMatch)) : SearchResults :=
  let ms := (collectMatches perLine 0).1
  { «matches» := ms
    total_matches := ms.length
    search_complete := decide (ms.length < MATCH_CAP) }

/-! ### Backend GetChunk, modelled from the spec (claim C2) -/

/-- Modelled from the spec: the Rust engine's GetChunk is missing from src/.
Spec section 4.4: `end_line` is exclusive and clamped silently to the line
count; a `start_line` at or past the line count yields an empty chunk;
otherwise the data is the line range `[start_line, min end_line line_count)`. -/
def getChunk (lines : List (List String)) (start_line end_line : Nat) : ChunkResp :=
  if lines.length ≤ start_line then
    { data := [], start_line := start_line, end_line := end_line }
  else
    { data := (lines.take (min end_line lines.length)).drop start_line
      start_line := start_line
      end_line := end_line }

/-- The GetChunk requests the search-result loader issues
(useSearchResults.ts, handleSearchChunkRequest): for each virtual index in
`[virtualStart, virtualEnd)` that is within the sorted results, request the
single line `(n, n)` when line `n` is not yet in the searchLines cache
(`cached` lists the cached line numbers). -/
def searchChunkRequests (sorted : List SearchMatch) (cached : List Nat)
    (virtualStart virtualEnd : Nat) : List (Nat × Nat) :=
  (List.range' virtualStart (min virtualEnd sorted.length - virtualStart)).filterMap
    (fun i =>
      match sorted.get? i with
      | some m =>
        if m.line_number ∈ cached then none
        else some (m.line_number, m.line_number)
      | none => none)

/-! ### Built-in log-format patterns (claim C4)

The regex source strings below are copied verbatim from LOG_FORMAT_PATTERNS in
ParsingPreviewPanel.tsx; a literal brace character is written with the escape
\x7b / \x7d. -/

/-- Count of capturing groups in a regex source scanned left to right: an open
paren that is not escaped, not inside a character class, and not followed by a
question mark.  The second argument tracks whether the scanner is inside a
character class. -/
def countCaptures : List Char → Bool → Nat
  | [], _ => 0
  | '\\' :: _ :: rest, inClass => countCaptures rest inClass
  | ['\\'], _ => 0
  | '[' :: rest, false => countCaptures rest true
  | ']' :: rest, true => countCaptures rest false
  | '(' :: '?' :: rest, false => countCaptures ('?' :: rest) false
  | '(' :: rest, false => countCaptures rest false + 1
  | _ :: rest, inClass => countCaptures rest inClass

/-- Capturing-group count of a regex source string. -/
def captureCount (s : String) : Nat := countCaptures s.toList false

/-- One entry of LOG_FORMAT_PATTERNS: the built-in pattern and its declared
column count. -/
structure FormatPattern where
  pattern : String
  columns : Nat
deriving DecidableEq

/-- LOG_FORMAT_PATTERNS (ParsingPreviewPanel.tsx): the built-in backend regex
and declared column count of each recognized format; Other has no entry. -/
def LOG_FORMAT_PATTERNS : LogFormat → Option FormatPattern
  | .CommonEventFormat => some
      ⟨"^CEF:(\\d+)\\|([^|]+)\\|([^|]+)\\|([^|]+)\\|([^|]+)\\|([^|]+)\\|(\\d+)\\|(.*)$", 8⟩
  | .W3CExtended => some
      ⟨"^(\\d\x7b4\x7d-\\d\x7b2\x7d-\\d\x7b2\x7d)\\s(\\d\x7b2\x7d:\\d\x7b2\x7d:\\d\x7b2\x7d)\\s(\\S+)\\s(\\S+)\\s(\\S+)", 5⟩
  | .SyslogRFC5424 => some
      ⟨"^<(\\d\x7b1,3\x7d)>1\\s(\\S+)\\s(\\S+)\\s(\\S+)\\s(\\S+)\\s(\\S+)\\s(\\[(?:.+)\\]|-) (.*)$", 8⟩
  | .NCSACombined => some
      ⟨"^(\\d\x7b1,3\x7d(?:\\.\\d\x7b1,3\x7d)\x7b3\x7d) - - \\[(.*?)\\] \"(.*?)\" (\\d\x7b3\x7d) (\\d+|-)$", 5⟩
  | .CommonLogFormat => some
      ⟨"^(\\S+) \\S+ (\\S+) \\[([\\w:/]+\\s[+\\-]\\d\x7b4\x7d)\\] \"(\\S+) (\\S+)\\s*(\\S+)?\\s*\" (\\d\x7b3\x7d) (\\S+)", 8⟩
  | .SyslogRFC3164 => some
      ⟨"^<(\\d\x7b1,3\x7d)>([A-Z][a-z]\x7b2\x7d\\s\x7b1,2\x7d\\d\x7b1,2\x7d\\s\\d\x7b2\x7d:\\d\x7b2\x7d:\\d\x7b2\x7d)\\s(\\S+)\\s([^:]+):\\s(.*)$", 5⟩
  | .Other => none

/-- The per-format fallback column count of handleApplyParsing
(useEventHandlers.ts / App.tsx): 8 for CommonEventFormat, SyslogRFC5424 and
CommonLogFormat, 0 for Other, 5 otherwise. -/
def applyParsingDefault (fmt : LogFormat) : Nat :=
  if fmt = .Other then 0
  else if fmt = .CommonEventFormat ∨ fmt = .SyslogRFC5424 ∨ fmt = .CommonLogFormat then 8
  else 5

/-- The column count handleApplyParsing stores in parsingColumns:
`nbrColumns || default` with JS falsiness, so a missing or zero nbrColumns
falls back to the per-format default. -/
def applyParsingColumns (fmt : LogFormat) (nbrColumns : Option Nat) : Nat :=
  match nbrColumns with
  | some n => if n = 0 then applyParsingDefault fmt else n
  | none => applyParsingDefault fmt

/-! ### Client re-sort of search results (claim C5) -/

/-- The client re-sort of search results (useSearchResults.ts, sortedResults):
a stable sort of the matches comparing line_number only.  JS `Array.sort` is
stable, so it is modelled by insertion sort, which is stable. -/
def sortSearchResults (l : List SearchMatch) : List SearchMatch :=
  List.insertionSort (fun a b => a.line_number ≤ b.line_number) l

/-- The spec ordering on matches: lexicographic by
(line_number, column, start_index). -/
def specLe (a b : SearchMatch) : Prop :=
  a.line_number < b.line_number ∨
    (a.line_number = b.line_number ∧
      (a.column < b.column ∨ (a.column = b.column ∧ a.start_index ≤ b.start_index)))

instance (a b : SearchMatch) : Decidable (specLe a b) := by
  unfold specLe; infer_instance

/-! ### ChunkManager (claim C6)

Shallow embedding of src/fatfile/src/webview/services/chunkManager.ts.  The
manager's `this.accessTimes` map and the `Date.now()` clock are passed
explicitly; `addChunk` returns the new chunk map together with the updated
access times. -/

/-- MAX_LINES_IN_MEMORY (constants.ts / chunkManager.ts). -/
def MAX_LINES_IN_MEMORY : Nat := 2000

/-- getTotalLines (chunkManager.ts): total number of lines across all chunks. -/
def getTotalLines (m : ChunkMap) : Nat := (m.map (fun e => e.2.length)).sum

/-- The eviction loop of evictIfNeeded (chunkManager.ts): walk the entries
(key, accessTime, lineCount) sorted by access time, deleting chunks and
their access times until the running line total is at or under the limit. -/
def evictLoop : List (Nat × Nat × Nat) → ChunkMap → AccessTimes → Nat →
    ChunkMap × AccessTimes
  | [], m, times, _ => (m, times)
  | e :: rest, m, times, currentLines =>
    if currentLines ≤ MAX_LINES_IN_MEMORY then (m, times)
    else
      evictLoop rest (jsMapDelete m e.1) (jsMapDelete times e.1)
        (currentLines - e.2.2)

/-- evictIfNeeded (chunkManager.ts): if the total is over the limit, sort the
keys by access time (oldest first, stable) and evict until at or under the
limit. -/
def evictIfNeeded (times : AccessTimes) (chunks : ChunkMap) :
    ChunkMap × AccessTimes :=
  let totalLines := getTotalLines chunks
  if totalLines ≤ MAX_LINES_IN_MEMORY then (chunks, times)
  else
    let entries := (chunks.map Prod.fst).map
      (fun k => (k, (jsMapLookup times k).getD 0,
                 ((jsMapLookup chunks k).getD []).length))
    let sorted := List.insertionSort (fun a b => a.2.1 ≤ b.2.1) entries
    evictLoop sorted chunks times totalLines

/-- addChunk (chunkManager.ts): set the chunk, stamp its access time with the
current clock, then evict if needed.  Returns the new map and access times. -/
def addChunk (times : AccessTimes) (now : Nat) (currentChunks : ChunkMap)
    (startLine : Nat) (data : ChunkData) : ChunkMap × AccessTimes :=
  let newChunks := jsMapSet currentChunks startLine data
  let times1 := jsMapSet times startLine now
  evictIfNeeded times1 newChunks

/-! ### Application state and response handler (claims C3, C7, C8)

Shallow embedding of the webview state (appState.ts) and of handleResponse
(useMessageHandler.ts).  Progress percentages are modelled as Nat (no claim
depends on fractional percentages). -/

/-- CHUNK_SIZE (constants.ts). -/
def CHUNK_SIZE : Nat := 100

/-- PREVIEW_LINE_COUNT (constants.ts). -/
def PREVIEW_LINE_COUNT : Nat := 10

/-- The webview application state (appState.ts). -/
structure AppState where
  filePath : Option String
  lineCount : Nat
  chunks : ChunkMap
  searchLines : ChunkMap
  searchResults : List SearchMatch
  searchProgress : Nat
  searchComplete : Bool
  isSearching : Bool
  isLoading : Bool
  error : Option String
  encoding : Option String
  encodingSupported : Bool
  logFormat : Option LogFormat
  showParsingConfig : Bool
  previewLines : List (List String)
  isParsed : Bool
  parsingColumns : Option Nat
deriving DecidableEq

/-- initialAppState (appState.ts). -/
def initialAppState : AppState :=
  { filePath := none
    lineCount := 0
    chunks := []
    searchLines := []
    searchResults := []
    searchProgress := 0
    searchComplete := true
    isSearching := false
    isLoading := false
    error := none
    encoding := none
    encodingSupported := true
    logFormat := none
    showParsingConfig := false
    previewLines := []
    isParsed := false
    parsingColumns := none }

/-- The ChunkManager instance state: its accessTimes map and the logical
clock standing for `Date.now()`. -/
structure ManagerState where
  times : AccessTimes
  now : Nat
deriving DecidableEq

/-- The LinesAdded payload as declared by the protocol types (types.ts,
LinesAddedResponse): it carries only the two line counts and no new_lines
field. -/
structure LinesAddedDecl where
  old_line_count : Nat
  new_line_count : Nat
deriving DecidableEq

/-- The backend responses handled by handleResponse (useMessageHandler.ts).
The LinesAdded constructor carries the new_lines list that the handler reads
(`response.LinesAdded.new_lines`), although the declared protocol type
`LinesAddedDecl` above has no such field. -/
inductive Resp
  | encoding (enc : String) (is_supported : Bool)
  | fileOpened (line_count : Nat)
  | chunk (data : List (List String)) (start_line end_line : Nat)
  | parsingInformation (log_format : LogFormat)
  | searchResultsResp (ms : List SearchMatch) (total_matches : Nat)
      (search_complete : Bool)
  | progress (percent : Nat)
  | errorResp (message : String)
  | info (message : String)
  | fileTruncated (line_count : Nat)
  | linesAdded (old_line_count new_line_count : Nat)
      (new_lines : List (List String))
deriving DecidableEq

/-- The per-line loop of the LinesAdded branch (useMessageHandler.ts:215-229):
each new line is appended to the chunk that covers its line index, through
ChunkManager.addChunk. -/
def addNewLines (cm : ManagerState) (chunks : ChunkMap) (lineIndex : Nat) :
    List (List String) → ManagerState × ChunkMap
  | [] => (cm, chunks)
  | line :: rest =>
    let chunkStart := lineIndex / CHUNK_SIZE * CHUNK_SIZE
    let chunk := (jsMapLookup chunks chunkStart).getD []
    let r := addChunk cm.times cm.now chunks chunkStart (chunk ++ [line])
    addNewLines ⟨r.2, cm.now + 1⟩ r.1 (lineIndex + 1) rest

/-- handleResponse (useMessageHandler.ts), acting on the manager state and the
application state. -/
def handleResponse (cm : ManagerState) (s : AppState) : Resp →
    ManagerState × AppState
  | .encoding enc sup =>
    (cm, { s with encoding := some enc, encodingSupported := sup })
  | .fileOpened n =>
    (cm, { s with lineCount := n, error := none })
  | .chunk data start_line _ =>
    if s.previewLines.length = 0 ∧ s.showParsingConfig = false ∧
        s.isParsed = false then
      (cm, { s with previewLines := data.take PREVIEW_LINE_COUNT })
    else if data.length = 1 then
      (cm, { s with searchLines := jsMapSet s.searchLines start_line data
                    isLoading := false })
    else
      let r := addChunk cm.times cm.now s.chunks start_line data
      (⟨r.2, cm.now + 1⟩, { s with chunks := r.1, isLoading := false })
  | .parsingInformation fmt =>
    if s.parsingColumns ≠ none then
      (⟨[], cm.now⟩,
       { s with logFormat := some fmt, isParsed := true,
                showParsingConfig := false, isLoading := false, chunks := [] })
    else if s.showParsingConfig = false ∧ s.isParsed = false then
      (cm, { s with logFormat := some fmt, showParsingConfig := true,
                    isLoading := false })
    else
      (cm, { s with logFormat := some fmt, isLoading := false })
  | .searchResultsResp ms _ complete =>
    (cm, { s with searchResults := ms, searchComplete := complete,
                  isSearching := false, searchProgress := 100 })
  | .progress p =>
    (cm, { s with searchProgress := p })
  | .errorResp msg =>
    (cm, { s with error := some msg, isLoading := false, isSearching := false })
  | .info _ => (cm, s)
  | .fileTruncated n =>
    (⟨[], cm.now⟩, { s with lineCount := n, chunks := [] })
  | .linesAdded old_line_count new_line_count new_lines =>
    if 0 < new_lines.length then
      let r := addNewLines cm s.chunks old_line_count new_lines
      (r.1, { s with lineCount := new_line_count, chunks := r.2 })
    else
      (cm, { s with lineCount := new_line_count, chunks := s.chunks })

/-! ### Initialization flow (claim C7)

Shallow embedding of useFileInitialization.ts as a transition system: each
extension message updates the state through the message handler, and the
init-flow effects re-run exactly when their dependency tuples changed, after
the state commit (React effect semantics). -/

/-- The commands the initialization flow posts to the extension. -/
inductive Cmd
  | getFileEncoding (path : String)
  | openFile (path : String)
  | getChunk (start_line end_line : Nat)
  | getParsingInformation
deriving DecidableEq

/-- Messages from the extension (useFileInitialization.ts messageHandler). -/
inductive InMsg
  | init (filePath : String)
  | response (r : Resp)
  | errorMsg (message : String)
deriving DecidableEq

/-- JS truthiness of a nullable string (`state.encoding && state.filePath`). -/
def optStrTruthy : Option String → Bool
  | none => false
  | some s => !(s == "")

/-- The combined webview state: the ChunkManager instance and the React
application state. -/
structure WebviewState where
  cm : ManagerState
  app : AppState
deriving DecidableEq

/-- The webview state at startup. -/
def initialWebviewState : WebviewState := ⟨⟨[], 0⟩, initialAppState⟩

/-- The message handler of useFileInitialization.ts: an init message resets
the chunk cache, records the path and posts GetFileEncoding directly; a
response message runs handleResponse; an error message records the error. -/
def processMsg (w : WebviewState) : InMsg → WebviewState × List Cmd
  | .init p =>
    (⟨⟨[], w.cm.now⟩,
      { w.app with filePath := some p, isLoading := true, chunks := [] }⟩,
     [.getFileEncoding p])
  | .response r =>
    let res := handleResponse w.cm w.app r
    (⟨res.1, res.2⟩, [])
  | .errorMsg msg =>
    (⟨w.cm,
      { w.app with error := some msg, isLoading := false,
                   isSearching := false }⟩,
     [])

/-- Effect "After receiving encoding, open the file"
(useFileInitialization.ts:85-102): deps [encoding, filePath]. -/
def effOpenFile (prev post : AppState) : List Cmd :=
  if ((prev.encoding, prev.filePath) ≠ (post.encoding, post.filePath)) ∧
      optStrTruthy post.encoding = true ∧ optStrTruthy post.filePath = true then
    [.openFile (post.filePath.getD "")]
  else []

/-- Effect "After file is opened, get first lines for preview"
(useFileInitialization.ts:105-127): deps [lineCount, previewLines.length,
parsingColumns]. -/
def effGetChunk (prev post : AppState) : List Cmd :=
  if ((prev.lineCount, prev.previewLines.length, prev.parsingColumns) ≠
        (post.lineCount, post.previewLines.length, post.parsingColumns)) ∧
      0 < post.lineCount ∧ post.previewLines.length = 0 ∧
      post.parsingColumns = none then
    [.getChunk 0 10]
  else []

/-- Effect "After preview lines are received, get parsing information"
(useFileInitialization.ts:130-151): deps [previewLines.length, logFormat,
showParsingConfig]. -/
def effGetParsing (prev post : AppState) : List Cmd :=
  if ((prev.previewLines.length, prev.logFormat, prev.showParsingConfig) ≠
        (post.previewLines.length, post.logFormat, post.showParsingConfig)) ∧
      0 < post.previewLines.length ∧ post.logFormat = none ∧
      post.showParsingConfig = false then
    [.getParsingInformation]
  else []

/-- One observable event of the webview: a message received from the
extension or a command posted to it. -/
inductive Ev
  | recv (m : InMsg)
  | send (c : Cmd)
deriving DecidableEq

/-- One delivered message: the handler runs (posting its direct commands),
then the effects run against the committed state. -/
def stepMsg (w : WebviewState) (m : InMsg) : WebviewState × List Ev :=
  let res := processMsg w m
  let effs := effOpenFile w.app res.1.app ++ effGetChunk w.app res.1.app ++
    effGetParsing w.app res.1.app
  (res.1, .recv m :: (res.2 ++ effs).map .send)

/-- The event trace of a message sequence delivered to the webview. -/
def runMsgs (w : WebviewState) : List InMsg → List Ev
  | [] => []
  | m :: ms =>
    let r := stepMsg w m
    r.2 ++ runMsgs r.1 ms

/-- Which protocol milestones have occurred so far in a trace. -/
structure TraceFlags where
  openSent : Bool
  getChunkSent : Bool
  fileOpenedRcvd : Bool
  chunkRcvd : Bool
deriving DecidableEq

/-- Milestone update for one event. -/
def updFlags (f : TraceFlags) : Ev → TraceFlags
  | .send (.openFile _) => { f with openSent := true }
  | .send (.getChunk _ _) => { f with getChunkSent := true }
  | .recv (.response (.fileOpened _)) => { f with fileOpenedRcvd := true }
  | .recv (.response (.chunk _ _ _)) => { f with chunkRcvd := true }
  | _ => f

/-- Milestone update over a list of events. -/
def updFlagsList (f : TraceFlags) (evs : List Ev) : TraceFlags :=
  evs.foldl updFlags f

/-- A backend-conforming trace: a FileOpened response arrives only after
OpenFile was sent, a Chunk response only after GetChunk was sent, and the
watcher events FileTruncated / LinesAdded only once a session is open (after
some FileOpened response). -/
def admissible (f : TraceFlags) : List Ev → Bool
  | [] => true
  | e :: rest =>
    (match e with
     | .recv (.response (.fileOpened _)) => f.openSent
     | .recv (.response (.chunk _ _ _)) => f.getChunkSent
     | .recv (.response (.fileTruncated _)) => f.fileOpenedRcvd
     | .recv (.response (.linesAdded _ _ _)) => f.fileOpenedRcvd
     | _ => true) && admissible (updFlags f e) rest

/-- The claimed ordering: every GetChunk send follows an OpenFile send and a
FileOpened receipt; every GetParsingInformation send follows a GetChunk send
and a Chunk receipt. -/
def initOrdered (f : TraceFlags) : List Ev → Bool
  | [] => true
  | e :: rest =>
    (match e with
     | .send (.getChunk _ _) => f.openSent && f.fileOpenedRcvd
     | .send .getParsingInformation => f.getChunkSent && f.chunkRcvd
     | _ => true) && initOrdered (updFlags f e) rest

/-- No milestone at the start of a trace. -/
def noFlags : TraceFlags := ⟨false, false, false, false⟩

/-- Pointwise strengthening of milestone flags. -/
def flagsLe (f g : TraceFlags) : Prop :=
  (f.openSent = true → g.openSent = true) ∧
  (f.getChunkSent = true → g.getChunkSent = true) ∧
  (f.fileOpenedRcvd = true → g.fileOpenedRcvd = true) ∧
  (f.chunkRcvd = true → g.chunkRcvd = true)

/-- The invariant tying the webview state to the milestones of its trace: a
positive line count was produced by the session flow (FileOpened received,
OpenFile sent), a non-empty preview was produced by a Chunk response to a
GetChunk request, and the milestones themselves are ordered. -/
def InitInv (w : WebviewState) (f : TraceFlags) : Prop :=
  (0 < w.app.lineCount → f.fileOpenedRcvd = true ∧ f.openSent = true) ∧
  (0 < w.app.previewLines.length → f.chunkRcvd = true ∧ f.getChunkSent = true) ∧
  (f.fileOpenedRcvd = true → f.openSent = true) ∧
  (f.chunkRcvd = true → f.getChunkSent = true)

/-! ### Reference semantics of addChunk (claim C9)

To state that `ChunkManager.addChunk` never mutates the caller's map we model
JS reference semantics explicitly: a heap of Map objects in which the list
index is the object reference; `new Map(m)` appends a copy of `m`'s current
entries, while `set` and `delete` mutate the referenced cell in place. -/

/-- A heap of chunk-map objects; the reference of an object is its index. -/
abbrev Heap := List ChunkMap

/-- Allocate a new Map object holding `v`; returns the heap and the fresh
reference. -/
def heapAlloc (h : Heap) (v : ChunkMap) : Heap × Nat := (h ++ [v], h.length)

/-- Read the entries of the Map object behind a reference. -/
def heapRead (h : Heap) (r : Nat) : ChunkMap := (h.get? r).getD []

/-- Mutate the Map object behind a reference in place. -/
def heapWrite (h : Heap) (r : Nat) (v : ChunkMap) : Heap := h.set r v

/-- The eviction loop of evictIfNeeded with reference semantics: all deletes
mutate the map behind reference `r` (the `new Map(chunks)` copy). -/
def evictLoopRef : List (Nat × Nat × Nat) → Heap → Nat → AccessTimes → Nat →
    Heap × Nat × AccessTimes
  | [], h, r, times, _ => (h, r, times)
  | e :: rest, h, r, times, currentLines =>
    if currentLines ≤ MAX_LINES_IN_MEMORY then (h, r, times)
    else
      evictLoopRef rest (heapWrite h r (jsMapDelete (heapRead h r) e.1)) r
        (jsMapDelete times e.1) (currentLines - e.2.2)

/-- addChunk (chunkManager.ts) with JS reference semantics: the caller's map
is behind reference `r`; `new Map(currentChunks)` copies it, `set` writes the
copy, and eviction copies again and deletes on that second copy.  Returns the
heap, the reference of the returned map and the updated access times. -/
def addChunkRef (times : AccessTimes) (now : Nat) (h : Heap) (r : Nat)
    (startLine : Nat) (data : ChunkData) : Heap × Nat × AccessTimes :=
  let a1 := heapAlloc h (heapRead h r)
  let h2 := heapWrite a1.1 a1.2 (jsMapSet (heapRead a1.1 a1.2) startLine data)
  let times1 := jsMapSet times startLine now
  let chunks := heapRead h2 a1.2
  let totalLines := getTotalLines chunks
  if totalLines ≤ MAX_LINES_IN_MEMORY then (h2, a1.2, times1)
  else
    let entries := (chunks.map Prod.fst).map
      (fun k => (k, (jsMapLookup times1 k).getD 0,
                 ((jsMapLookup chunks k).getD []).length))
    let sorted := List.insertionSort (fun a b => a.2.1 ≤ b.2.1) entries
    let a2 := heapAlloc h2 chunks
    evictLoopRef sorted a2.1 a2.2 times1 totalLines

/-! ### SearchBar pattern construction (claim C10)

Shallow embedding of SearchBar.tsx: escapeRegex and handleSubmit, together
with a semantics for the literal-only regex fragment that escapeRegex
produces. -/

/-- The metacharacters escaped by escapeRegex (SearchBar.tsx:14-16), the
character class . * + ? ^ $ \x7b \x7d ( ) | [ ] \ . -/
def isRegexMeta (c : Char) : Bool :=
  c == '.' || c == '*' || c == '+' || c == '?' || c == '^' || c == '$' ||
  c == '\x7b' || c == '\x7d' || c == '(' || c == ')' || c == '|' ||
  c == '[' || c == ']' || c == '\\'

/-- escapeRegex (SearchBar.tsx): prepend a backslash to every metacharacter
(`str.replace(/[.*+?^$\x7b\x7d()|[\]\\]/g, "\\$&")`). -/
def escapeRegex : List Char → List Char
  | [] => []
  | c :: rest =>
    if isRegexMeta c then '\\' :: c :: escapeRegex rest
    else c :: escapeRegex rest

/-- JS `String.prototype.trim`: strip leading and trailing whitespace. -/
def jsTrim (s : List Char) : List Char :=
  ((s.dropWhile Char.isWhitespace).reverse.dropWhile Char.isWhitespace).reverse

/-- handleSubmit (SearchBar.tsx:31-51): when the trimmed text is non-empty
and no search is running, the submitted pattern is the trimmed text, escaped
unless regex mode is on, and prefixed with (?i) unless case-sensitive mode is
on; otherwise nothing is submitted. -/
def submittedPattern (searchText : List Char)
    (regexMode caseSensitive isSearching : Bool) : Option (List Char) :=
  if jsTrim searchText ≠ [] ∧ isSearching = false then
    let p0 := jsTrim searchText
    let p1 := if regexMode then p0 else escapeRegex p0
    let p2 := if caseSensitive then p1 else '(' :: '?' :: 'i' :: ')' :: p1
    some p2
  else none

/-- Parser for the literal-only regex fragment: an escaped character is a
literal atom for that character; an unescaped character is a literal atom
only when it is not a metacharacter; anything else is outside the fragment. -/
def litParseAux : Bool → List Char → Option (List Char)
  | false, [] => some []
  | false, c :: rest =>
    if c = '\\' then litParseAux true rest
    else if isRegexMeta c then none
    else (litParseAux false rest).map (fun l => c :: l)
  | true, [] => none
  | true, c :: rest => (litParseAux false rest).map (fun l => c :: l)

/-- Parse a literal-only regex: see `litParseAux`; the flag records a pending
backslash escape. -/
def litParse (p : List Char) : Option (List Char) := litParseAux false p

/-- Case folding used by the match semantics; with the flag off it is the
identity. -/
def foldChar (ci : Bool) (c : Char) : Char := if ci then c.toLower else c

/-- The literal-only regex `p` matches the text `t` at position `i` (with
optional case folding): the atoms equal the characters of `t` at `i`. -/
def litMatchAt (ci : Bool) (p : List Char) (t : List Char) (i : Nat) : Prop :=
  match litParse p with
  | some cs => ((t.drop i).take cs.length).map (foldChar ci) = cs.map (foldChar ci)
  | none => False

/-- A literal, case-insensitive occurrence of `s` in `t` at position `i`. -/
def ciOccurrenceAt (s t : List Char) (i : Nat) : Prop :=
  ((t.drop i).take s.length).map Char.toLower = s.map Char.toLower

/-! ## Theorems -/

/-- The counter of one line scan: it advances by the number of kept matches
and never passes the cap. -/
theorem takeToCap_counter : ∀ (l : List SearchMatch) (count : Nat),
    count ≤ MATCH_CAP →
    (takeToCap l count).2 = count + (takeToCap l count).1.length ∧
    (takeToCap l count).2 ≤ MATCH_CAP
  | [], count, h => by simpa [takeToCap] using h
  | m :: ms, count, h => by
    by_cases hc : count < MATCH_CAP
    · obtain ⟨ih1, ih2⟩ := takeToCap_counter ms (count + 1) hc
      simp only [takeToCap, if_pos hc, List.length_cons]
      exact ⟨by omega, ih2⟩
    · simp only [takeToCap, if_neg hc, List.length_nil]
      exact ⟨by omega, h⟩

/-- The counter of the whole scan: it counts the kept matches and never
passes the cap. -/
theorem collectMatches_counter : ∀ (ls : List (List SearchMatch)) (count : Nat),
    count ≤ MATCH_CAP →
    (collectMatches ls count).2 = count + (collectMatches ls count).1.length ∧
    (collectMatches ls count).2 ≤ MATCH_CAP
  | [], count, h => by simpa [collectMatches] using h
  | line :: rest, count, h => by
    obtain ⟨h1, h2⟩ := takeToCap_counter line count h
    obtain ⟨h3, h4⟩ := collectMatches_counter rest (takeToCap line count).2 h2
    simp only [collectMatches, List.length_append]
    exact ⟨by omega, h4⟩

/-- C1: every Search reports at most 1000 matches; `total_matches` equals the
number of reported matches; and `search_complete` holds exactly when
`total_matches` is below 1000, so a search that stops early at the cap
reports `search_complete = false`. -/
theorem search_cap_and_complete (perLine : List (List SearchMatch)) :
    (runSearch perLine).«matches».length ≤ MATCH_CAP ∧
    (runSearch perLine).total_matches = (runSearch perLine).«matches».length ∧
    ((runSearch perLine).search_complete = true ↔
      (runSearch perLine).total_matches < MATCH_CAP) := by
  obtain ⟨h1, h2⟩ := collectMatches_counter perLine 0 (by norm_num [MATCH_CAP])
  refine ⟨?_, rfl, ?_⟩
  · simp only [runSearch]
    omega
  · simp [runSearch]

/-- GetChunk of a degenerate range `(n, n)` always yields empty data. -/
theorem getChunk_self_empty (lines : List (List String)) (n : Nat) :
    (getChunk lines n n).data = [] := by
  unfold getChunk
  split
  · rfl
  · rename_i h
    apply List.eq_nil_of_length_eq_zero
    simp only [List.length_drop, List.length_take]
    omega

/-- C2: for a GetChunk whose end is within the line count the data has
exactly `end_line - start_line` entries; a request with
`start_line = end_line` (as the search-result loader issues) yields empty
data, and indeed every request that loader issues is of that degenerate
shape. -/
theorem getChunk_data_length (lines : List (List String)) (s e : Nat)
    (hse : s ≤ e) (he : e ≤ lines.length) :
    (getChunk lines s e).data.length = e - s ∧
    (∀ n, (getChunk lines n n).data = []) ∧
    (∀ sorted cached vs ve r, r ∈ searchChunkRequests sorted cached vs ve →
      r.1 = r.2 ∧ (getChunk lines r.1 r.2).data = []) := by
  refine ⟨?_, fun n => getChunk_self_empty lines n,
    fun sorted cached vs ve r hr => ?_⟩
  · unfold getChunk
    split
    · rename_i h1
      simp only [List.length_nil]
      omega
    · rename_i h1
      simp only [List.length_drop, List.length_take]
      omega
  · unfold searchChunkRequests at hr
    obtain ⟨i, hi, hf⟩ := List.mem_filterMap.mp hr
    rcases hg : sorted.get? i with _ | m
    · rw [hg] at hf
      simp at hf
    · rw [hg] at hf
      by_cases hc : m.line_number ∈ cached
      · simp [hc] at hf
      · simp only [hc, if_neg, if_false] at hf
        have : r = (m.line_number, m.line_number) := by
          simpa using hf.symm
        subst this
        exact ⟨rfl, getChunk_self_empty lines m.line_number⟩

/-- C2 witness: a concrete three-line file with an in-range request. -/
theorem getChunk_data_length_witness :
    (getChunk [["a"], ["bb"], ["ccc"]] 1 3).data.length = 3 - 1 :=
  (getChunk_data_length [["a"], ["bb"], ["ccc"]] 1 3 (by decide) (by decide)).1

/-- C4: each built-in format's regex has exactly as many capturing groups as
its declared column count, and that count agrees with the default column
count handleApplyParsing computes for the format. -/
theorem builtin_pattern_groups (fmt : LogFormat) (p : FormatPattern)
    (h : LOG_FORMAT_PATTERNS fmt = some p) :
    captureCount p.pattern = p.columns ∧
    p.columns = applyParsingColumns fmt none := by
  cases fmt <;> simp [LOG_FORMAT_PATTERNS] at h <;>
    subst h <;> exact ⟨by decide, by decide⟩

/-- C4 witness: the CommonEventFormat entry. -/
theorem builtin_pattern_groups_witness :
    captureCount ((LOG_FORMAT_PATTERNS LogFormat.CommonEventFormat).getD
      ⟨"", 0⟩).pattern =
      ((LOG_FORMAT_PATTERNS LogFormat.CommonEventFormat).getD ⟨"", 0⟩).columns :=
  (builtin_pattern_groups LogFormat.CommonEventFormat
    ((LOG_FORMAT_PATTERNS LogFormat.CommonEventFormat).getD ⟨"", 0⟩) rfl).1

/-- C5: on a match list sorted by the spec key (line_number, column,
start_index), the client's stable re-sort by line_number alone is the
identity. -/
theorem sorted_results_sort_id (l : List SearchMatch)
    (h : List.Pairwise specLe l) : sortSearchResults l = l := by
  apply List.Sorted.insertionSort_eq
  refine h.imp (fun hab => ?_)
  rcases hab with h1 | ⟨h2, _⟩
  · exact Nat.le_of_lt h1
  · exact Nat.le_of_eq h2

/-- C5 witness: a spec-sorted list with a tie on line_number is returned
unchanged. -/
theorem sorted_results_sort_id_witness :
    sortSearchResults [⟨0, 0, 1, 2⟩, ⟨0, 1, 0, 3⟩, ⟨2, 0, 0, 0⟩] =
      [⟨0, 0, 1, 2⟩, ⟨0, 1, 0, 3⟩, ⟨2, 0, 0, 0⟩] :=
  sorted_results_sort_id [⟨0, 0, 1, 2⟩, ⟨0, 1, 0, 3⟩, ⟨2, 0, 0, 0⟩] (by decide)

/-- C8: a FileTruncated event replaces the stored line count with the carried
value and empties the chunk cache (including the manager's access times),
leaving every other part of the application state unchanged. -/
theorem fileTruncated_update (cm : ManagerState) (s : AppState) (n : Nat) :
    (handleResponse cm s (.fileTruncated n)).2.lineCount = n ∧
    (handleResponse cm s (.fileTruncated n)).2.chunks = [] ∧
    (handleResponse cm s (.fileTruncated n)).1.times = [] ∧
    (handleResponse cm s (.fileTruncated n)).2.filePath = s.filePath ∧
    (handleResponse cm s (.fileTruncated n)).2.searchLines = s.searchLines ∧
    (handleResponse cm s (.fileTruncated n)).2.searchResults = s.searchResults ∧
    (handleResponse cm s (.fileTruncated n)).2.searchProgress = s.searchProgress ∧
    (handleResponse cm s (.fileTruncated n)).2.searchComplete = s.searchComplete ∧
    (handleResponse cm s (.fileTruncated n)).2.isSearching = s.isSearching ∧
    (handleResponse cm s (.fileTruncated n)).2.isLoading = s.isLoading ∧
    (handleResponse cm s (.fileTruncated n)).2.error = s.error ∧
    (handleResponse cm s (.fileTruncated n)).2.encoding = s.encoding ∧
    (handleResponse cm s (.fileTruncated n)).2.encodingSupported =
      s.encodingSupported ∧
    (handleResponse cm s (.fileTruncated n)).2.logFormat = s.logFormat ∧
    (handleResponse cm s (.fileTruncated n)).2.showParsingConfig =
      s.showParsingConfig ∧
    (handleResponse cm s (.fileTruncated n)).2.previewLines = s.previewLines ∧
    (handleResponse cm s (.fileTruncated n)).2.isParsed = s.isParsed ∧
    (handleResponse cm s (.fileTruncated n)).2.parsingColumns = s.parsingColumns :=
  ⟨rfl, rfl, rfl, rfl, rfl, rfl, rfl, rfl, rfl, rfl, rfl, rfl, rfl, rfl, rfl,
   rfl, rfl, rfl⟩

/-- C3: the LinesAdded payload type declared in types.ts is fully determined
by its two line counts — it has no new_lines field to carry — while the
handler in useMessageHandler.ts reads `new_lines` and its result genuinely
depends on it: the same counts with different new lines give different
states. -/
theorem linesAdded_type_lacks_new_lines :
    (∀ a b : LinesAddedDecl,
      a = b ↔ (a.old_line_count = b.old_line_count ∧
               a.new_line_count = b.new_line_count)) ∧
    handleResponse ⟨[], 0⟩ initialAppState (.linesAdded 3 5 [["x"], ["y"]]) ≠
      handleResponse ⟨[], 0⟩ initialAppState (.linesAdded 3 5 [["z"], ["w"]]) := by
  constructor
  · intro a b
    cases a
    cases b
    simp [LinesAddedDecl.mk.injEq]
  · decide

/-- Escaping makes every character a literal atom: parsing the escaped text
recovers the text itself. -/
theorem litParseAux_escapeRegex : ∀ s : List Char,
    litParseAux false (escapeRegex s) = some s
  | [] => rfl
  | c :: rest => by
    by_cases h : isRegexMeta c = true
    · simp [escapeRegex, h, litParseAux, litParseAux_escapeRegex rest]
    · have hc : ¬(c = '\\') := by
        intro e
        subst e
        exact h (by decide)
      simp [escapeRegex, h, litParseAux, hc, litParseAux_escapeRegex rest]

/-- Escaping makes every character a literal atom: parsing the escaped text
recovers the text itself. -/
theorem litParse_escapeRegex (s : List Char) :
    litParse (escapeRegex s) = some s := litParseAux_escapeRegex s

/-- C10: a submitted non-empty search produces the trimmed text, escaped when
regex mode is off and prefixed with (?i) when case-sensitive mode is off; and
the escaped pattern, read under the literal-regex semantics with case
folding, matches exactly the case-insensitive literal occurrences of the
trimmed text — so with both toggles off the submitted pattern matches exactly
the literal occurrences of the typed text, case-insensitively. -/
theorem searchbar_literal_pattern (text : List Char) (rm cs : Bool)
    (h : jsTrim text ≠ []) :
    submittedPattern text rm cs false =
      some ((if cs then [] else ['(', '?', 'i', ')']) ++
            (if rm then jsTrim text else escapeRegex (jsTrim text))) ∧
    (∀ t i, litMatchAt true (escapeRegex (jsTrim text)) t i ↔
      ciOccurrenceAt (jsTrim text) t i) ∧
    submittedPattern text false false false =
      some ('(' :: '?' :: 'i' :: ')' :: escapeRegex (jsTrim text)) := by
  have hfold : foldChar true = Char.toLower := funext fun c => rfl
  refine ⟨?_, ?_, ?_⟩
  · simp only [submittedPattern]
    rw [if_pos ⟨h, trivial⟩]
    cases rm <;> cases cs <;> simp
  · intro t i
    simp [litMatchAt, litParse_escapeRegex, ciOccurrenceAt, hfold]
  · simp only [submittedPattern]
    rw [if_pos ⟨h, trivial⟩]
    simp

/-- C10 witness: the text "a.B " with both toggles off. -/
theorem searchbar_literal_pattern_witness :
    submittedPattern ['a', '.', 'B', ' '] false false false =
      some ('(' :: '?' :: 'i' :: ')' ::
        escapeRegex (jsTrim ['a', '.', 'B', ' '])) :=
  (searchbar_literal_pattern ['a', '.', 'B', ' '] false false (by decide)).2.2

/-- Setting a key keeps map keys free of duplicates. -/
theorem jsMapSet_keys_nodup {β : Type} (m : List (Nat × β)) (k : Nat) (v : β)
    (h : (m.map Prod.fst).Nodup) : ((jsMapSet m k v).map Prod.fst).Nodup := by
  unfold jsMapSet
  split
  · have heq : (m.map (fun e => if e.1 = k then (k, v) else e)).map Prod.fst =
        m.map Prod.fst := by
      rw [List.map_map]
      apply List.map_congr_left
      intro e _
      by_cases h1 : e.1 = k
      · simp [h1]
      · simp [h1]
    rw [heq]
    exact h
  · rename_i hc
    have hk : k ∉ m.map Prod.fst := by
      intro hmem
      exact hc (by simpa using hmem)
    simp only [List.map_append, List.map_cons, List.map_nil]
    exact h.append (List.nodup_singleton k)
      (fun a ha hb => hk ((List.mem_singleton.mp hb) ▸ ha))

/-- A key of the map has a value. -/
theorem jsMapLookup_isSome {β : Type} : ∀ (m : List (Nat × β)) (k : Nat),
    k ∈ m.map Prod.fst → ∃ v, jsMapLookup m k = some v
  | [], k, h => by simp at h
  | e :: rest, k, h => by
    by_cases hk : e.1 = k
    · refine ⟨e.2, ?_⟩
      unfold jsMapLookup
      rw [List.find?_cons_of_pos]
      · rfl
      · simp [hk]
    · have hmem : k ∈ rest.map Prod.fst := by
        have h' : k ∈ e.1 :: rest.map Prod.fst := by
          simpa only [List.map_cons] using h
        rcases List.mem_cons.mp h' with h1 | h2
        · exact absurd h1.symm hk
        · exact h2
      obtain ⟨v, hv⟩ := jsMapLookup_isSome rest k hmem
      refine ⟨v, ?_⟩
      unfold jsMapLookup at hv ⊢
      rw [List.find?_cons_of_neg]
      · exact hv
      · simp [hk]

/-- Membership among the keys of a deleted map. -/
theorem mem_keys_jsMapDelete {β : Type} (m : List (Nat × β)) (k k' : Nat) :
    k' ∈ (jsMapDelete m k).map Prod.fst ↔
      (k' ∈ m.map Prod.fst ∧ k' ≠ k) := by
  simp only [jsMapDelete, List.mem_map, List.mem_filter, bne_iff_ne, ne_eq]
  constructor
  · rintro ⟨e, ⟨hm, hne⟩, rfl⟩
    exact ⟨⟨e, hm, rfl⟩, hne⟩
  · rintro ⟨⟨e, hm, rfl⟩, hne⟩
    exact ⟨e, ⟨hm, hne⟩, rfl⟩

/-- Deleting keeps map keys free of duplicates. -/
theorem jsMapDelete_keys_nodup {β : Type} (m : List (Nat × β)) (k : Nat)
    (h : (m.map Prod.fst).Nodup) :
    ((jsMapDelete m k).map Prod.fst).Nodup :=
  h.sublist ((List.filter_sublist m).map Prod.fst)

/-- Deleting an absent key changes nothing. -/
theorem jsMapDelete_not_mem {β : Type} (m : List (Nat × β)) (k : Nat)
    (h : k ∉ m.map Prod.fst) : jsMapDelete m k = m :=
  List.filter_eq_self.mpr (fun e he => by
    have hne : e.1 ≠ k := fun hh => h (hh ▸ List.mem_map_of_mem Prod.fst he)
    simpa [bne_iff_ne] using hne)

/-- Deleting a present key removes exactly its lines from the total. -/
theorem getTotalLines_jsMapDelete : ∀ (m : ChunkMap) (k : Nat) (v : ChunkData),
    (m.map Prod.fst).Nodup → jsMapLookup m k = some v →
    getTotalLines (jsMapDelete m k) = getTotalLines m - v.length ∧
    v.length ≤ getTotalLines m
  | [], k, v, _, hv => by simp [jsMapLookup] at hv
  | e :: rest, k, v, hnd, hv => by
    have hnd' : (rest.map Prod.fst).Nodup := (List.nodup_cons.mp hnd).2
    have hout : e.1 ∉ rest.map Prod.fst := (List.nodup_cons.mp hnd).1
    by_cases hk : e.1 = k
    · have hve : v = e.2 := by
        unfold jsMapLookup at hv
        rw [List.find?_cons_of_pos _ (by simp [hk])] at hv
        simpa using hv.symm
      have hdel : jsMapDelete (e :: rest) k = rest := by
        unfold jsMapDelete
        rw [List.filter_cons_of_neg (by simp [hk])]
        have : k ∉ rest.map Prod.fst := hk ▸ hout
        exact jsMapDelete_not_mem rest k this
      rw [hdel, hve]
      simp only [getTotalLines, List.map_cons, List.sum_cons]
      omega
    · have hv' : jsMapLookup rest k = some v := by
        unfold jsMapLookup at hv ⊢
        rwa [List.find?_cons_of_neg _ (by simp [hk])] at hv
      obtain ⟨ih1, ih2⟩ := getTotalLines_jsMapDelete rest k v hnd' hv'
      have hdel : jsMapDelete (e :: rest) k = e :: jsMapDelete rest k := by
        unfold jsMapDelete
        rw [List.filter_cons_of_pos (by simp [hk])]
      rw [hdel]
      simp only [getTotalLines, List.map_cons, List.sum_cons] at ih1 ih2 ⊢
      omega

/-- Lookup of a different key commutes with delete. -/
theorem jsMapLookup_jsMapDelete_ne {β : Type} :
    ∀ (m : List (Nat × β)) (k k' : Nat), k' ≠ k →
    jsMapLookup (jsMapDelete m k) k' = jsMapLookup m k'
  | [], _, _, _ => rfl
  | e :: rest, k, k', hne => by
    by_cases hk : e.1 = k
    · have hdel : jsMapDelete (e :: rest) k = jsMapDelete rest k := by
        unfold jsMapDelete
        rw [List.filter_cons_of_neg (by simp [hk])]
      rw [hdel, jsMapLookup_jsMapDelete_ne rest k k' hne]
      unfold jsMapLookup
      rw [List.find?_cons_of_neg _ (by
        simp only [hk, beq_iff_eq]
        exact fun hh => hne hh.symm)]
    · have hdel : jsMapDelete (e :: rest) k = e :: jsMapDelete rest k := by
        unfold jsMapDelete
        rw [List.filter_cons_of_pos (by simp [hk])]
      rw [hdel]
      by_cases hk' : e.1 = k'
      · unfold jsMapLookup
        rw [List.find?_cons_of_pos _ (by simp [hk']),
          List.find?_cons_of_pos _ (by simp [hk'])]
      · unfold jsMapLookup
        rw [List.find?_cons_of_neg _ (by simp [hk']),
          List.find?_cons_of_neg _ (by simp [hk'])]
        exact jsMapLookup_jsMapDelete_ne rest k k' hne

/-- The eviction loop always lands at or under the line limit: it either
breaks with the tracked total (equal to the map's total) under the limit, or
exhausts the key list, which covers every key of the map, leaving the map
empty. -/
theorem evictLoop_le : ∀ (l : List (Nat × Nat × Nat)) (m : ChunkMap)
    (ts : AccessTimes) (cur : Nat),
    (m.map Prod.fst).Nodup →
    (l.map (fun e => e.1)).Nodup →
    (∀ k, k ∈ m.map Prod.fst → k ∈ l.map (fun e => e.1)) →
    (∀ e ∈ l, e.1 ∈ m.map Prod.fst) →
    (∀ e ∈ l, ∀ v, jsMapLookup m e.1 = some v → v.length = e.2.2) →
    cur = getTotalLines m →
    getTotalLines (evictLoop l m ts cur).1 ≤ MAX_LINES_IN_MEMORY
  | [], m, ts, cur, _, _, hcov, _, _, _ => by
    have hm0 : m = [] := by
      cases m with
      | nil => rfl
      | cons e rest => exact absurd (hcov e.1 (by simp)) (by simp)
    subst hm0
    simp [evictLoop, getTotalLines, MAX_LINES_IN_MEMORY]
  | e :: rest, m, ts, cur, hm, hl, hcov, hsub, hcnt, hcur => by
    unfold evictLoop
    split
    · rename_i hle
      simpa [hcur] using hle
    · rename_i hgt
      have hkm : e.1 ∈ m.map Prod.fst := hsub e (by simp)
      obtain ⟨v, hv⟩ := jsMapLookup_isSome m e.1 hkm
      have hvl : v.length = e.2.2 := hcnt e (by simp) v hv
      obtain ⟨hd1, hd2⟩ := getTotalLines_jsMapDelete m e.1 v hm hv
      have hlrest : (rest.map (fun e => e.1)).Nodup :=
        (List.nodup_cons.mp (by simpa using hl)).2
      have hlout : e.1 ∉ rest.map (fun e => e.1) :=
        (List.nodup_cons.mp (by simpa using hl)).1
      apply evictLoop_le rest (jsMapDelete m e.1) (jsMapDelete ts e.1)
        (cur - e.2.2)
      · exact jsMapDelete_keys_nodup m e.1 hm
      · exact hlrest
      · intro k hk
        obtain ⟨hk1, hk2⟩ := (mem_keys_jsMapDelete m e.1 k).mp hk
        have h' : k ∈ e.1 :: rest.map (fun e => e.1) := by
          simpa only [List.map_cons] using hcov k hk1
        rcases List.mem_cons.mp h' with h1 | h2
        · exact absurd h1 hk2
        · exact h2
      · intro e' he'
        refine (mem_keys_jsMapDelete m e.1 e'.1).mpr
          ⟨hsub e' (by simp [he']), ?_⟩
        intro hh
        exact hlout (hh ▸ List.mem_map_of_mem (fun x => x.1) he')
      · intro e' he' v' hv'
        have hne : e'.1 ≠ e.1 := by
          intro hh
          exact hlout (hh ▸ List.mem_map_of_mem (fun x => x.1) he')
        rw [jsMapLookup_jsMapDelete_ne m e.1 e'.1 hne] at hv'
        exact hcnt e' (by simp [he']) v' hv'
      · omega

/-- C6: after any addChunk call on a map with unique keys, the returned map
holds at most MAX_LINES_IN_MEMORY (2000) lines in total across all chunks. -/
theorem addChunk_total_le (times : AccessTimes) (now : Nat) (cur : ChunkMap)
    (startLine : Nat) (data : ChunkData)
    (h : (cur.map Prod.fst).Nodup) :
    getTotalLines (addChunk times now cur startLine data).1 ≤
      MAX_LINES_IN_MEMORY := by
  have hm : ((jsMapSet cur startLine data).map Prod.fst).Nodup :=
    jsMapSet_keys_nodup cur startLine data h
  set m := jsMapSet cur startLine data with hmdef
  set times1 := jsMapSet times startLine now with htdef
  by_cases hle : getTotalLines m ≤ MAX_LINES_IN_MEMORY
  · simp [addChunk, evictIfNeeded, ← hmdef, ← htdef, hle]
  · have hred : addChunk times now cur startLine data =
        evictLoop
          (List.insertionSort (fun a b => a.2.1 ≤ b.2.1)
            ((m.map Prod.fst).map
              (fun k => (k, (jsMapLookup times1 k).getD 0,
                         ((jsMapLookup m k).getD []).length))))
          m times1 (getTotalLines m) := by
      simp [addChunk, evictIfNeeded, ← hmdef, ← htdef, hle]
    rw [hred]
    set entries := (m.map Prod.fst).map
      (fun k => (k, (jsMapLookup times1 k).getD 0,
                 ((jsMapLookup m k).getD []).length)) with hedef
    have hperm : List.Perm
        (List.insertionSort (fun a b => a.2.1 ≤ b.2.1) entries) entries :=
      List.perm_insertionSort _ entries
    have hekeys : entries.map (fun e => e.1) = m.map Prod.fst := by
      rw [hedef, List.map_map]
      exact List.map_id _
    have hpk : List.Perm
        ((List.insertionSort (fun a b => a.2.1 ≤ b.2.1) entries).map
          (fun e => e.1))
        (m.map Prod.fst) := hekeys ▸ hperm.map (fun e => e.1)
    apply evictLoop_le
    · exact hm
    · exact hpk.nodup_iff.mpr hm
    · intro k hk
      exact hpk.mem_iff.mpr hk
    · intro e' he'
      have := hperm.subset he'
      rw [hedef] at this
      obtain ⟨k, hkmem, hke⟩ := List.mem_map.mp this
      have : e'.1 = k := by rw [← hke]
      rw [this]
      exact hkmem
    · intro e' he' v' hv'
      have := hperm.subset he'
      rw [hedef] at this
      obtain ⟨k, hkmem, hke⟩ := List.mem_map.mp this
      have hk1 : e'.1 = k := by rw [← hke]
      rw [hk1] at hv'
      rw [← hke]
      simp [hv']
    · rfl

/-- C6 witness: adding a chunk to a concrete one-chunk map. -/
theorem addChunk_total_le_witness :
    getTotalLines (addChunk [] 0 [(0, [["a"], ["b"]])] 100 [["c"]]).1 ≤
      MAX_LINES_IN_MEMORY :=
  addChunk_total_le [] 0 [(0, [["a"], ["b"]])] 100 [["c"]] (by decide)

/-- Reading past a write at another reference. -/
theorem heapRead_heapWrite_ne (hp : Heap) (r i : Nat) (v : ChunkMap)
    (hne : i ≠ r) : heapRead (heapWrite hp r v) i = heapRead hp i := by
  unfold heapRead heapWrite
  rw [List.get?_eq_getElem?, List.get?_eq_getElem?,
    List.getElem?_set_ne (Ne.symm hne)]

/-- Reading below the end of an extended heap. -/
theorem heapRead_append_lt (hp tail : Heap) (i : Nat) (hi : i < hp.length) :
    heapRead (hp ++ tail) i = heapRead hp i := by
  unfold heapRead
  rw [List.get?_eq_getElem?, List.get?_eq_getElem?,
    List.getElem?_append_left hi]

/-- The eviction loop writes only at its own reference. -/
theorem evictLoopRef_frame : ∀ (l : List (Nat × Nat × Nat)) (hp : Heap)
    (r : Nat) (ts : AccessTimes) (cur i : Nat), i ≠ r →
    heapRead (evictLoopRef l hp r ts cur).1 i = heapRead hp i
  | [], _, _, _, _, _, _ => rfl
  | e :: rest, hp, r, ts, cur, i, hne => by
    unfold evictLoopRef
    split
    · rfl
    · rw [evictLoopRef_frame rest _ r _ _ i hne,
        heapRead_heapWrite_ne _ r i _ hne]

/-- C9: under JS reference semantics, addChunk leaves the caller's map — and
every other pre-existing Map object — unchanged: it only allocates copies and
mutates those. -/
theorem addChunkRef_preserves_input (times : AccessTimes) (now : Nat)
    (hp : Heap) (r : Nat) (startLine : Nat) (data : ChunkData)
    (hr : r < hp.length) :
    heapRead (addChunkRef times now hp r startLine data).1 r =
      heapRead hp r ∧
    ∀ i, i < hp.length →
      heapRead (addChunkRef times now hp r startLine data).1 i =
        heapRead hp i := by
  have main : ∀ i, i < hp.length →
      heapRead (addChunkRef times now hp r startLine data).1 i =
        heapRead hp i := by
    intro i hi
    unfold addChunkRef heapAlloc
    simp only []
    split
    · rw [heapRead_heapWrite_ne _ _ _ _ (by omega),
        heapRead_append_lt _ _ _ hi]
    · rw [evictLoopRef_frame _ _ _ _ _ i (by
        simp only [heapWrite, List.length_set, List.length_append,
          List.length_cons, List.length_nil]
        omega)]
      rw [heapRead_append_lt _ _ _ (by
        simp only [heapWrite, List.length_set, List.length_append,
          List.length_cons, List.length_nil]
        omega)]
      rw [heapRead_heapWrite_ne _ _ _ _ (by omega),
        heapRead_append_lt _ _ _ hi]
  exact ⟨main r hr, main⟩

/-- C9 witness: a heap with one map object. -/
theorem addChunkRef_preserves_input_witness :
    heapRead (addChunkRef [] 0 [[(0, [["a"]])]] 0 100 [["b"]]).1 0 =
      heapRead [[(0, [["a"]])]] 0 :=
  (addChunkRef_preserves_input [] 0 [[(0, [["a"]])]] 0 100 [["b"]]
    (by decide)).1

/-- updFlagsList on nil. -/
theorem updFlagsList_nil (f : TraceFlags) : updFlagsList f [] = f := rfl

/-- updFlagsList on cons. -/
theorem updFlagsList_cons (f : TraceFlags) (e : Ev) (l : List Ev) :
    updFlagsList f (e :: l) = updFlagsList (updFlags f e) l := rfl

/-- flagsLe is reflexive. -/
theorem flagsLe_refl (f : TraceFlags) : flagsLe f f := ⟨id, id, id, id⟩

/-- flagsLe is transitive. -/
theorem flagsLe_trans {f g h : TraceFlags} (h1 : flagsLe f g)
    (h2 : flagsLe g h) : flagsLe f h :=
  ⟨fun a => h2.1 (h1.1 a), fun a => h2.2.1 (h1.2.1 a),
   fun a => h2.2.2.1 (h1.2.2.1 a), fun a => h2.2.2.2 (h1.2.2.2 a)⟩

/-- One milestone update only strengthens the flags. -/
theorem flagsLe_updFlags (f : TraceFlags) (e : Ev) :
    flagsLe f (updFlags f e) := by
  unfold updFlags
  split <;> refine ⟨?_, ?_, ?_, ?_⟩ <;> intro h <;> simp [h]

/-- A run of milestone updates only strengthens the flags. -/
theorem flagsLe_updFlagsList : ∀ (evs : List Ev) (f : TraceFlags),
    flagsLe f (updFlagsList f evs)
  | [], f => flagsLe_refl f
  | e :: rest, f => by
    rw [updFlagsList_cons]
    exact flagsLe_trans (flagsLe_updFlags f e)
      (flagsLe_updFlagsList rest (updFlags f e))

/-- Posted commands never set the received-response milestones. -/
theorem sendList_recvFlags : ∀ (cs : List Cmd) (f : TraceFlags),
    (updFlagsList f (cs.map Ev.send)).fileOpenedRcvd = f.fileOpenedRcvd ∧
    (updFlagsList f (cs.map Ev.send)).chunkRcvd = f.chunkRcvd
  | [], _ => ⟨rfl, rfl⟩
  | c :: rest, f => by
    rw [List.map_cons, updFlagsList_cons]
    have h := sendList_recvFlags rest (updFlags f (Ev.send c))
    have hc : (updFlags f (Ev.send c)).fileOpenedRcvd = f.fileOpenedRcvd ∧
        (updFlags f (Ev.send c)).chunkRcvd = f.chunkRcvd := by
      cases c <;> exact ⟨rfl, rfl⟩
    exact ⟨h.1.trans hc.1, h.2.trans hc.2⟩

/-- A list of posted commands passes the admissibility checks. -/
theorem admissible_sendList : ∀ (cs : List Cmd) (f : TraceFlags),
    admissible f (cs.map Ev.send) = true
  | [], _ => rfl
  | c :: rest, f => by
    simp only [List.map_cons, admissible]
    rw [admissible_sendList rest]
    rfl

/-- The ordering check of a recv event is vacuous. -/
theorem initOrdered_cons_recv (f : TraceFlags) (m : InMsg) (evs : List Ev) :
    initOrdered f (Ev.recv m :: evs) =
      initOrdered (updFlags f (Ev.recv m)) evs := by
  simp only [initOrdered, Bool.true_and]

/-- A command list passes the ordering checks when the flags already carry
the milestones each checked command needs. -/
theorem initOrdered_sendList : ∀ (cs : List Cmd) (f : TraceFlags),
    (∀ s e, Cmd.getChunk s e ∈ cs →
      f.openSent = true ∧ f.fileOpenedRcvd = true) →
    (Cmd.getParsingInformation ∈ cs →
      f.getChunkSent = true ∧ f.chunkRcvd = true) →
    initOrdered f (cs.map Ev.send) = true
  | [], _, _, _ => rfl
  | c :: rest, f, h1, h2 => by
    have hle := flagsLe_updFlags f (Ev.send c)
    have htail : initOrdered (updFlags f (Ev.send c)) (rest.map Ev.send) = true :=
      initOrdered_sendList rest (updFlags f (Ev.send c))
        (fun s e hm => ⟨hle.1 (h1 s e (List.mem_cons_of_mem c hm)).1,
                        hle.2.2.1 (h1 s e (List.mem_cons_of_mem c hm)).2⟩)
        (fun hm => ⟨hle.2.1 (h2 (List.mem_cons_of_mem c hm)).1,
                    hle.2.2.2 (h2 (List.mem_cons_of_mem c hm)).2⟩)
    simp only [List.map_cons, initOrdered]
    rw [htail]
    cases c with
    | getFileEncoding p => rfl
    | openFile p => rfl
    | getChunk s e =>
      have := h1 s e (List.mem_cons_self _ _)
      simp [this.1, this.2]
    | getParsingInformation =>
      have := h2 (List.mem_cons_self _ _)
      simp [this.1, this.2]

/-- Commands posted by the open-file effect are OpenFile commands. -/
theorem mem_effOpenFile (prev post : AppState) (c : Cmd)
    (h : c ∈ effOpenFile prev post) : ∃ p, c = Cmd.openFile p := by
  unfold effOpenFile at h
  split at h
  · simp only [List.mem_singleton] at h
    exact ⟨_, h⟩
  · simp at h

/-- The preview-chunk effect posts GetChunk(0, 10) and fires only in a state
with a positive line count, no preview lines and no parsing columns. -/
theorem mem_effGetChunk (prev post : AppState) (c : Cmd)
    (h : c ∈ effGetChunk prev post) :
    c = Cmd.getChunk 0 10 ∧ 0 < post.lineCount ∧
    post.previewLines.length = 0 ∧ post.parsingColumns = none := by
  unfold effGetChunk at h
  split at h
  · rename_i hcond
    simp only [List.mem_singleton] at h
    exact ⟨h, hcond.2.1, hcond.2.2.1, hcond.2.2.2⟩
  · simp at h

/-- The parsing-information effect posts GetParsingInformation and fires only
in a state with preview lines and no log format yet. -/
theorem mem_effGetParsing (prev post : AppState) (c : Cmd)
    (h : c ∈ effGetParsing prev post) :
    c = Cmd.getParsingInformation ∧ 0 < post.previewLines.length ∧
    post.logFormat = none ∧ post.showParsingConfig = false := by
  unfold effGetParsing at h
  split at h
  · rename_i hcond
    simp only [List.mem_singleton] at h
    exact ⟨h, hcond.2.1, hcond.2.2.1, hcond.2.2.2⟩
  · simp at h

/-- The ordering checks pass for one step's posted commands as soon as the
flags carry what a fired preview-chunk effect needs (a positive line count)
and what a fired parsing-information effect needs (preview lines present). -/
theorem initOrdered_stepSends (f1 : TraceFlags) (direct : List Cmd)
    (prev post : AppState)
    (hdirect : ∀ c ∈ direct,
      (∀ s e, c ≠ Cmd.getChunk s e) ∧ c ≠ Cmd.getParsingInformation)
    (hgc : 0 < post.lineCount →
      f1.openSent = true ∧ f1.fileOpenedRcvd = true)
    (hgp : 0 < post.previewLines.length →
      f1.getChunkSent = true ∧ f1.chunkRcvd = true) :
    initOrdered f1 ((direct ++ (effOpenFile prev post ++
      effGetChunk prev post ++ effGetParsing prev post)).map Ev.send) =
      true := by
  apply initOrdered_sendList
  · intro s e hmem
    rcases List.mem_append.mp hmem with hD | h4
    · exact absurd rfl ((hdirect _ hD).1 s e)
    rcases List.mem_append.mp h4 with h5 | hGP
    rcases List.mem_append.mp h5 with hOF | hGC
    · obtain ⟨p, hp⟩ := mem_effOpenFile prev post _ hOF
      simp at hp
    · exact hgc (mem_effGetChunk prev post _ hGC).2.1
    · have := (mem_effGetParsing prev post _ hGP).1
      simp at this
  · intro hmem
    rcases List.mem_append.mp hmem with hD | h4
    · exact absurd rfl (hdirect _ hD).2
    rcases List.mem_append.mp h4 with h5 | hGP
    rcases List.mem_append.mp h5 with hOF | hGC
    · obtain ⟨p, hp⟩ := mem_effOpenFile prev post _ hOF
      simp at hp
    · have := (mem_effGetChunk prev post _ hGC).1
      simp at this
    · exact hgp (mem_effGetParsing prev post _ hGP).2.1

/-- Assemble the invariant after a step from facts about the post-state and
the flags right after the receive. -/
theorem initInv_of_step (w' : WebviewState) (f1 fEnd : TraceFlags)
    (hmono : flagsLe f1 fEnd)
    (hfo : fEnd.fileOpenedRcvd = f1.fileOpenedRcvd)
    (hcr : fEnd.chunkRcvd = f1.chunkRcvd)
    (h1 : 0 < w'.app.lineCount →
      f1.fileOpenedRcvd = true ∧ f1.openSent = true)
    (h2 : 0 < w'.app.previewLines.length →
      f1.chunkRcvd = true ∧ f1.getChunkSent = true)
    (h3 : f1.fileOpenedRcvd = true → f1.openSent = true)
    (h4 : f1.chunkRcvd = true → f1.getChunkSent = true) :
    InitInv w' fEnd := by
  refine ⟨?_, ?_, ?_, ?_⟩
  · intro h
    obtain ⟨a, b⟩ := h1 h
    exact ⟨hmono.2.2.1 a, hmono.1 b⟩
  · intro h
    obtain ⟨a, b⟩ := h2 h
    exact ⟨hmono.2.2.2 a, hmono.2.1 b⟩
  · intro h
    rw [hfo] at h
    exact hmono.1 (h3 h)
  · intro h
    rw [hcr] at h
    exact hmono.2.1 (h4 h)

/-- One delivered message passes the ordering checks and preserves the
invariant. -/
theorem stepMsg_ok (w : WebviewState) (f : TraceFlags) (m : InMsg)
    (hinv : InitInv w f)
    (hadm : admissible f (stepMsg w m).2 = true) :
    initOrdered f (stepMsg w m).2 = true ∧
    InitInv (stepMsg w m).1 (updFlagsList f (stepMsg w m).2) := by
  obtain ⟨hi1, hi2, hi3, hi4⟩ := hinv
  cases m with
  | init p =>
    simp only [stepMsg, processMsg]
    rw [initOrdered_cons_recv, updFlagsList_cons]
    simp only [updFlags]
    refine ⟨initOrdered_stepSends f _ _ _ ?_
      (fun h => ⟨(hi1 h).2, (hi1 h).1⟩)
      (fun h => ⟨(hi2 h).2, (hi2 h).1⟩), ?_⟩
    · intro c hc
      simp only [List.mem_singleton] at hc
      subst hc
      exact ⟨fun s e h => Cmd.noConfusion h, fun h => Cmd.noConfusion h⟩
    · exact initInv_of_step _ f _ (flagsLe_updFlagsList _ f)
        (sendList_recvFlags _ f).1 (sendList_recvFlags _ f).2
        hi1 hi2 hi3 hi4
  | errorMsg msg =>
    simp only [stepMsg, processMsg]
    rw [initOrdered_cons_recv, updFlagsList_cons]
    simp only [updFlags]
    refine ⟨initOrdered_stepSends f _ _ _
      (fun c hc => absurd hc (List.not_mem_nil c))
      (fun h => ⟨(hi1 h).2, (hi1 h).1⟩)
      (fun h => ⟨(hi2 h).2, (hi2 h).1⟩), ?_⟩
    exact initInv_of_step _ f _ (flagsLe_updFlagsList _ f)
      (sendList_recvFlags _ f).1 (sendList_recvFlags _ f).2
      hi1 hi2 hi3 hi4
  | response r =>
    cases r with
    | encoding enc sup =>
      simp only [stepMsg, processMsg, handleResponse]
      rw [initOrdered_cons_recv, updFlagsList_cons]
      simp only [updFlags]
      refine ⟨initOrdered_stepSends f _ _ _
        (fun c hc => absurd hc (List.not_mem_nil c))
        (fun h => ⟨(hi1 h).2, (hi1 h).1⟩)
        (fun h => ⟨(hi2 h).2, (hi2 h).1⟩), ?_⟩
      exact initInv_of_step _ f _ (flagsLe_updFlagsList _ f)
        (sendList_recvFlags _ f).1 (sendList_recvFlags _ f).2
        hi1 hi2 hi3 hi4
    | fileOpened n =>
      simp only [stepMsg, processMsg, handleResponse, admissible,
        admissible_sendList, Bool.and_true] at hadm
      simp only [stepMsg, processMsg, handleResponse]
      rw [initOrdered_cons_recv, updFlagsList_cons]
      simp only [updFlags]
      refine ⟨initOrdered_stepSends _ _ _ _
        (fun c hc => absurd hc (List.not_mem_nil c))
        (fun _ => ⟨hadm, rfl⟩)
        (fun h => ⟨(hi2 h).2, (hi2 h).1⟩), ?_⟩
      exact initInv_of_step _ _ _ (flagsLe_updFlagsList _ _)
        (sendList_recvFlags _ _).1 (sendList_recvFlags _ _).2
        (fun _ => ⟨rfl, hadm⟩)
        (fun h => ⟨(hi2 h).1, (hi2 h).2⟩)
        (fun _ => hadm) hi4
    | chunk data sl el =>
      simp only [stepMsg, processMsg, handleResponse, admissible,
        admissible_sendList, Bool.and_true] at hadm
      have hlc : (handleResponse w.cm w.app (.chunk data sl el)).2.lineCount =
          w.app.lineCount := by
        simp only [handleResponse]
        split
        · rfl
        · split <;> rfl
      simp only [stepMsg, processMsg]
      rw [initOrdered_cons_recv, updFlagsList_cons]
      simp only [updFlags]
      refine ⟨initOrdered_stepSends _ _ _ _
        (fun c hc => absurd hc (List.not_mem_nil c))
        (fun h => ⟨(hi1 (hlc ▸ h)).2, (hi1 (hlc ▸ h)).1⟩)
        (fun _ => ⟨hadm, rfl⟩), ?_⟩
      exact initInv_of_step _ _ _ (flagsLe_updFlagsList _ _)
        (sendList_recvFlags _ _).1 (sendList_recvFlags _ _).2
        (fun h => ⟨(hi1 (hlc ▸ h)).1, (hi1 (hlc ▸ h)).2⟩)
        (fun _ => ⟨rfl, hadm⟩)
        hi3 (fun _ => hadm)
    | parsingInformation fmt =>
      have hlc : (handleResponse w.cm w.app (.parsingInformation fmt)).2.lineCount =
          w.app.lineCount := by
        simp only [handleResponse]
        split
        · rfl
        · split <;> rfl
      have hpl : (handleResponse w.cm w.app (.parsingInformation fmt)).2.previewLines =
          w.app.previewLines := by
        simp only [handleResponse]
        split
        · rfl
        · split <;> rfl
      simp only [stepMsg, processMsg]
      rw [initOrdered_cons_recv, updFlagsList_cons]
      simp only [updFlags]
      refine ⟨initOrdered_stepSends f _ _ _
        (fun c hc => absurd hc (List.not_mem_nil c))
        (fun h => ⟨(hi1 (hlc ▸ h)).2, (hi1 (hlc ▸ h)).1⟩)
        (fun h => ⟨(hi2 (hpl ▸ h)).2, (hi2 (hpl ▸ h)).1⟩), ?_⟩
      exact initInv_of_step _ f _ (flagsLe_updFlagsList _ f)
        (sendList_recvFlags _ f).1 (sendList_recvFlags _ f).2
        (fun h => ⟨(hi1 (hlc ▸ h)).1, (hi1 (hlc ▸ h)).2⟩)
        (fun h => ⟨(hi2 (hpl ▸ h)).1, (hi2 (hpl ▸ h)).2⟩)
        hi3 hi4
    | searchResultsResp ms tm complete =>
      simp only [stepMsg, processMsg, handleResponse]
      rw [initOrdered_cons_recv, updFlagsList_cons]
      simp only [updFlags]
      refine ⟨initOrdered_stepSends f _ _ _
        (fun c hc => absurd hc (List.not_mem_nil c))
        (fun h => ⟨(hi1 h).2, (hi1 h).1⟩)
        (fun h => ⟨(hi2 h).2, (hi2 h).1⟩), ?_⟩
      exact initInv_of_step _ f _ (flagsLe_updFlagsList _ f)
        (sendList_recvFlags _ f).1 (sendList_recvFlags _ f).2
        hi1 hi2 hi3 hi4
    | progress p =>
      simp only [stepMsg, processMsg, handleResponse]
      rw [initOrdered_cons_recv, updFlagsList_cons]
      simp only [updFlags]
      refine ⟨initOrdered_stepSends f _ _ _
        (fun c hc => absurd hc (List.not_mem_nil c))
        (fun h => ⟨(hi1 h).2, (hi1 h).1⟩)
        (fun h => ⟨(hi2 h).2, (hi2 h).1⟩), ?_⟩
      exact initInv_of_step _ f _ (flagsLe_updFlagsList _ f)
        (sendList_recvFlags _ f).1 (sendList_recvFlags _ f).2
        hi1 hi2 hi3 hi4
    | errorResp msg =>
      simp only [stepMsg, processMsg, handleResponse]
      rw [initOrdered_cons_recv, updFlagsList_cons]
      simp only [updFlags]
      refine ⟨initOrdered_stepSends f _ _ _
        (fun c hc => absurd hc (List.not_mem_nil c))
        (fun h => ⟨(hi1 h).2, (hi1 h).1⟩)
        (fun h => ⟨(hi2 h).2, (hi2 h).1⟩), ?_⟩
      exact initInv_of_step _ f _ (flagsLe_updFlagsList _ f)
        (sendList_recvFlags _ f).1 (sendList_recvFlags _ f).2
        hi1 hi2 hi3 hi4
    | info msg =>
      simp only [stepMsg, processMsg, handleResponse]
      rw [initOrdered_cons_recv, updFlagsList_cons]
      simp only [updFlags]
      refine ⟨initOrdered_stepSends f _ _ _
        (fun c hc => absurd hc (List.not_mem_nil c))
        (fun h => ⟨(hi1 h).2, (hi1 h).1⟩)
        (fun h => ⟨(hi2 h).2, (hi2 h).1⟩), ?_⟩
      exact initInv_of_step _ f _ (flagsLe_updFlagsList _ f)
        (sendList_recvFlags _ f).1 (sendList_recvFlags _ f).2
        hi1 hi2 hi3 hi4
    | fileTruncated n =>
      simp only [stepMsg, processMsg, handleResponse, admissible,
        admissible_sendList, Bool.and_true] at hadm
      simp only [stepMsg, processMsg, handleResponse]
      rw [initOrdered_cons_recv, updFlagsList_cons]
      simp only [updFlags]
      refine ⟨initOrdered_stepSends f _ _ _
        (fun c hc => absurd hc (List.not_mem_nil c))
        (fun _ => ⟨hi3 hadm, hadm⟩)
        (fun h => ⟨(hi2 h).2, (hi2 h).1⟩), ?_⟩
      exact initInv_of_step _ f _ (flagsLe_updFlagsList _ f)
        (sendList_recvFlags _ f).1 (sendList_recvFlags _ f).2
        (fun _ => ⟨hadm, hi3 hadm⟩)
        hi2 hi3 hi4
    | linesAdded old_lc new_lc ls =>
      simp only [stepMsg, processMsg, handleResponse, admissible,
        admissible_sendList, Bool.and_true] at hadm
      have hpl : (handleResponse w.cm w.app (.linesAdded old_lc new_lc ls)).2.previewLines =
          w.app.previewLines := by
        simp only [handleResponse]
        split <;> rfl
      simp only [stepMsg, processMsg]
      rw [initOrdered_cons_recv, updFlagsList_cons]
      simp only [updFlags]
      refine ⟨initOrdered_stepSends f _ _ _
        (fun c hc => absurd hc (List.not_mem_nil c))
        (fun _ => ⟨hi3 hadm, hadm⟩)
        (fun h => ⟨(hi2 (hpl ▸ h)).2, (hi2 (hpl ▸ h)).1⟩), ?_⟩
      exact initInv_of_step _ f _ (flagsLe_updFlagsList _ f)
        (sendList_recvFlags _ f).1 (sendList_recvFlags _ f).2
        (fun _ => ⟨hadm, hi3 hadm⟩)
        (fun h => ⟨(hi2 (hpl ▸ h)).1, (hi2 (hpl ▸ h)).2⟩)
        hi3 hi4

/-- runMsgs on cons. -/
theorem runMsgs_cons (w : WebviewState) (m : InMsg) (ms : List InMsg) :
    runMsgs w (m :: ms) = (stepMsg w m).2 ++ runMsgs (stepMsg w m).1 ms := rfl

/-- Admissibility splits along an append. -/
theorem admissible_append : ∀ (xs ys : List Ev) (f : TraceFlags),
    admissible f (xs ++ ys) =
      (admissible f xs && admissible (updFlagsList f xs) ys)
  | [], ys, f => by simp [admissible, updFlagsList_nil]
  | e :: rest, ys, f => by
    simp only [List.cons_append, admissible, updFlagsList_cons, List.append_eq]
    rw [admissible_append rest ys (updFlags f e), Bool.and_assoc]

/-- The ordering check splits along an append. -/
theorem initOrdered_append : ∀ (xs ys : List Ev) (f : TraceFlags),
    initOrdered f (xs ++ ys) =
      (initOrdered f xs && initOrdered (updFlagsList f xs) ys)
  | [], ys, f => by simp [initOrdered, updFlagsList_nil]
  | e :: rest, ys, f => by
    simp only [List.cons_append, initOrdered, updFlagsList_cons, List.append_eq]
    rw [initOrdered_append rest ys (updFlags f e), Bool.and_assoc]

/-- Every admissible run from an invariant-holding configuration passes the
ordering checks. -/
theorem runMsgs_ordered : ∀ (msgs : List InMsg) (w : WebviewState)
    (f : TraceFlags), InitInv w f →
    admissible f (runMsgs w msgs) = true →
    initOrdered f (runMsgs w msgs) = true
  | [], _, _, _, _ => rfl
  | m :: ms, w, f, hinv, hadm => by
    rw [runMsgs_cons, admissible_append, Bool.and_eq_true] at hadm
    have hstep := stepMsg_ok w f m hinv hadm.1
    rw [runMsgs_cons, initOrdered_append, Bool.and_eq_true]
    exact ⟨hstep.1, runMsgs_ordered ms (stepMsg w m).1
      (updFlagsList f (stepMsg w m).2) hstep.2 hadm.2⟩

/-- The invariant holds at startup. -/
theorem initInv_initial : InitInv initialWebviewState noFlags := by
  refine ⟨fun h => ?_, fun h => ?_, fun h => ?_, fun h => ?_⟩ <;>
    simp [initialWebviewState, initialAppState, noFlags] at h

/-- Only GetFileEncoding is posted directly by the message handler. -/
theorem processMsg_direct (w : WebviewState) (m : InMsg) (c : Cmd)
    (h : c ∈ (processMsg w m).2) : ∃ p, c = Cmd.getFileEncoding p := by
  cases m with
  | init p =>
    simp only [processMsg, List.mem_singleton] at h
    exact ⟨p, h⟩
  | response r => simp [processMsg] at h
  | errorMsg msg => simp [processMsg] at h

/-- A GetChunk posted during a step comes from the preview effect, whose
guard requires a positive line count in the committed state. -/
theorem stepMsg_getChunk_state (w : WebviewState) (m : InMsg) (s e : Nat)
    (hmem : Ev.send (Cmd.getChunk s e) ∈ (stepMsg w m).2) :
    0 < (stepMsg w m).1.app.lineCount ∧
    (stepMsg w m).1.app.previewLines.length = 0 := by
  simp only [stepMsg] at hmem ⊢
  rcases List.mem_cons.mp hmem with h | h
  · exact Ev.noConfusion h
  · obtain ⟨c, hc, hce⟩ := List.mem_map.mp h
    have hc' : c = Cmd.getChunk s e := by injection hce
    subst hc'
    rcases List.mem_append.mp hc with hD | h4
    · obtain ⟨p, hp⟩ := processMsg_direct w m _ hD
      exact Cmd.noConfusion hp
    rcases List.mem_append.mp h4 with h5 | hGP
    rcases List.mem_append.mp h5 with hOF | hGC
    · obtain ⟨p, hp⟩ := mem_effOpenFile _ _ _ hOF
      exact Cmd.noConfusion hp
    · exact ⟨(mem_effGetChunk _ _ _ hGC).2.1, (mem_effGetChunk _ _ _ hGC).2.2.1⟩
    · exact Cmd.noConfusion (mem_effGetParsing _ _ _ hGP).1

/-- A GetParsingInformation posted during a step comes from the parsing
effect, whose guard requires preview lines in the committed state. -/
theorem stepMsg_getParsing_state (w : WebviewState) (m : InMsg)
    (hmem : Ev.send Cmd.getParsingInformation ∈ (stepMsg w m).2) :
    0 < (stepMsg w m).1.app.previewLines.length := by
  simp only [stepMsg] at hmem ⊢
  rcases List.mem_cons.mp hmem with h | h
  · exact Ev.noConfusion h
  · obtain ⟨c, hc, hce⟩ := List.mem_map.mp h
    have hc' : c = Cmd.getParsingInformation := by injection hce
    subst hc'
    rcases List.mem_append.mp hc with hD | h4
    · obtain ⟨p, hp⟩ := processMsg_direct w m _ hD
      exact Cmd.noConfusion hp
    rcases List.mem_append.mp h4 with h5 | hGP
    rcases List.mem_append.mp h5 with hOF | hGC
    · obtain ⟨p, hp⟩ := mem_effOpenFile _ _ _ hOF
      exact Cmd.noConfusion hp
    · exact Cmd.noConfusion (mem_effGetChunk _ _ _ hGC).1
    · exact (mem_effGetParsing _ _ _ hGP).2.1

/-- C7: over any backend-conforming message sequence, the initialization flow
is ordered: every GetChunk send is preceded by an OpenFile send and a
FileOpened receipt, every GetParsingInformation send is preceded by a
GetChunk send and a Chunk receipt; moreover a GetChunk is posted only in a
committed state whose line count is positive (with the preview still empty),
and a GetParsingInformation only once preview lines are present. -/
theorem init_flow_ordering (msgs : List InMsg)
    (hadm : admissible noFlags (runMsgs initialWebviewState msgs) = true) :
    initOrdered noFlags (runMsgs initialWebviewState msgs) = true ∧
    (∀ w m s e, Ev.send (Cmd.getChunk s e) ∈ (stepMsg w m).2 →
      0 < (stepMsg w m).1.app.lineCount ∧
      (stepMsg w m).1.app.previewLines.length = 0) ∧
    (∀ w m, Ev.send Cmd.getParsingInformation ∈ (stepMsg w m).2 →
      0 < (stepMsg w m).1.app.previewLines.length) :=
  ⟨runMsgs_ordered msgs initialWebviewState noFlags initInv_initial hadm,
   fun w m s e hmem => stepMsg_getChunk_state w m s e hmem,
   fun w m hmem => stepMsg_getParsing_state w m hmem⟩

/-- C7 witness: the canonical initialization exchange. -/
theorem init_flow_ordering_witness :
    initOrdered noFlags (runMsgs initialWebviewState
      [InMsg.init "/var/log/app.log",
       InMsg.response (.encoding "UTF-8" true),
       InMsg.response (.fileOpened 3),
       InMsg.response (.chunk [["a"], ["b"], ["c"]] 0 10),
       InMsg.response (.parsingInformation .NCSACombined)]) = true :=
  (init_flow_ordering
    [InMsg.init "/var/log/app.log",
     InMsg.response (.encoding "UTF-8" true),
     InMsg.response (.fileOpened 3),
     InMsg.response (.chunk [["a"], ["b"], ["c"]] 0 10),
     InMsg.response (.parsingInformation .NCSACombined)]
    (by decide)).1

end FatFile
